import Mathlib

/-!
Shallow embedding of `src/server/src/lib/lazy-cache.ts`.

The file exports `lazyCache`, built from three functions:
  * `memoryCache f timeMs` — per-process cache keyed by `JSON.stringify(args)`;
  * `renewRedisCache key f timeMs` — lock-guarded renewal against redis;
  * `redisCache cacheKey f timeMs` — shared cache keyed by
    `cacheKey + JSON.stringify(args)`.

JavaScript's single-threaded cooperative scheduling is embedded as an explicit
event-interleaving state machine per backend: each synchronous segment of the
source (from one `await`/suspension point to the next) is one atomic step, and
an execution is a list of events folded over the state.  Values of the wrapped
computation have an abstract type `T` together with a JavaScript truthiness
predicate `truthy : T → Bool` (the source tests `cached.value` and
`value || promise`, which are truthiness checks, not presence checks).
-/

namespace LazyCache

/-! ### Key derivation

`JSON.stringify` applied to the argument list.  The source calls the JS
builtin; we embed the JSON fragment actually reachable here (null, booleans,
integer numbers, strings, arrays).  String escaping is restricted to the two
characters that JSON must always escape; control-character escapes are not
needed by any theorem below. -/

inductive JVal where
  | jnull : JVal
  | jbool : Bool → JVal
  | jnum : Int → JVal
  | jstr : String → JVal
  | jarr : List JVal → JVal

def escapeChar (c : Char) : String :=
  if c = '"' then "\\\""
  else if c = '\\' then "\\\\"
  else String.singleton c

def escapeString (s : String) : String :=
  String.join (s.data.map escapeChar)

mutual

def jsonStringify : JVal → String
  | JVal.jnull => "null"
  | JVal.jbool true => "true"
  | JVal.jbool false => "false"
  | JVal.jnum n => toString n
  | JVal.jstr s => "\"" ++ escapeString s ++ "\""
  | JVal.jarr xs => "[" ++ jsonStringifyList xs ++ "]"

def jsonStringifyList : List JVal → String
  | [] => ""
  | [x] => jsonStringify x
  | x :: y :: xs => jsonStringify x ++ "," ++ jsonStringifyList (y :: xs)

end

/-- Key used by `memoryCache`: `const key = JSON.stringify(args)`. -/
def memoryKeyOf (args : List JVal) : String :=
  jsonStringify (JVal.jarr args)

/-- Key used by `redisCache`: `const key = cacheKey + JSON.stringify(args)`. -/
def redisKeyOf (cacheKey : String) (args : List JVal) : String :=
  cacheKey ++ jsonStringify (JVal.jarr args)

/-! ### Staleness check

Source: `function isExpired(at, timeMs) { return Date.now() - at > timeMs; }`.
Timestamps are integers.  When the record has no `at` field the JS expression
is `Date.now() - undefined > timeMs`, i.e. `NaN > timeMs`, which is `false`;
`isExpiredOpt` reproduces that. -/

def isExpired (at' now timeMs : Int) : Bool :=
  now - at' > timeMs

def isExpiredOpt : Option Int → Int → Int → Bool
  | none, _, _ => false
  | some a, now, timeMs => isExpired a now timeMs

/-! ### Promises and call outcomes

The source only ever calls `resolve`; no executor captures a `reject`
parameter, and an exception thrown inside a `new Promise(async resolve => …)`
executor rejects the executor's own (discarded) async-function promise, not
the constructed promise.  The `rejected` status is therefore present in the
type — a JS promise can in principle reject — but is never produced by any
step function below. -/

inductive PromStatus (T : Type) where
  | pending : PromStatus T
  | resolvedWith : Option T → PromStatus T
  | rejected : PromStatus T
deriving DecidableEq, Repr

/-- What a single call to the wrapped async function hands its caller:
either a promise already resolved in the same tick with the given
(possibly `undefined`) value, or the promise with the given id. -/
inductive Outcome (T : Type) where
  | immediate : Option T → Outcome T
  | attached : Nat → Outcome T
deriving DecidableEq, Repr

def promLookup {T : Type} (proms : List (Nat × PromStatus T)) (p : Nat) :
    Option (PromStatus T) :=
  (proms.find? (fun q => q.1 == p)).map Prod.snd

def setProm {T : Type} (proms : List (Nat × PromStatus T)) (p : Nat)
    (st : PromStatus T) : List (Nat × PromStatus T) :=
  proms.map (fun q => if q.1 == p then (q.1, st) else q)

/-- JS truthiness of an optional value: `undefined` is falsy, a present
value is as truthy as `truthy` says. -/
def jsOptTruthy {T : Type} (truthy : T → Bool) : Option T → Bool
  | none => false
  | some v => truthy v

/-! ### Memory cache

State of one key of the `caches` object of `memoryCache`.  The entry object
is created once (`caches[key] = cached = {}`) and then only mutated, so one
`Option (MemEntry T)` per key suffices.  A `PendingComp` is an executor of
`new Promise(async resolve => …)` suspended at `await f(...args)`: it
remembers its promise id, the `hasOldCache` boolean it computed before
suspending, and the `Date.now()` it captured for the `at:` field of the
`Object.assign` object literal (evaluated before the `await`). -/

structure MemEntry (T : Type) where
  at' : Option Int
  value : Option T
  promise : Option Nat
deriving DecidableEq, Repr

structure PendingComp where
  pid : Nat
  hasOld : Bool
  tStart : Int
deriving DecidableEq, Repr

structure MemState (T : Type) where
  entry : Option (MemEntry T)
  pendings : List PendingComp
  proms : List (Nat × PromStatus T)
  nextPid : Nat
  fCalls : Nat
  outcomes : List (Outcome T)
deriving DecidableEq, Repr

def memInit (T : Type) : MemState T :=
  ⟨none, [], [], 0, 0, []⟩

/-- The tail of a call that reaches `cached.promise = new Promise(async
resolve => …)`: compute `hasOldCache = cached && cached.value`, resolve at
once when it is truthy, capture `Date.now()`, invoke `f` and suspend, then
store the promise in the entry and return it to the caller.  All of this is
one synchronous segment. -/
def startComp {T : Type} (truthy : T → Bool) (t : Int) (e : MemEntry T)
    (s : MemState T) : MemState T :=
  let hasOld := jsOptTruthy truthy e.value
  let pid := s.nextPid
  let st := if hasOld then PromStatus.resolvedWith e.value else PromStatus.pending
  { s with
    entry := some { e with promise := some pid }
    pendings := s.pendings ++ [⟨pid, hasOld, t⟩]
    proms := s.proms ++ [(pid, st)]
    nextPid := pid + 1
    fCalls := s.fCalls + 1
    outcomes := s.outcomes ++ [Outcome.attached pid] }

/-- One call of the function returned by `memoryCache`, arriving at time `t`.
Faithful to the source line by line: the `!isExpired(at, timeMs)` check (with
its `NaN` behaviour when `at` is `undefined`), then `if (promise) return
value || promise`, then the promise construction. -/
def memCall {T : Type} (truthy : T → Bool) (timeMs t : Int) (s : MemState T) :
    MemState T :=
  match s.entry with
  | some e =>
    if !(isExpiredOpt e.at' t timeMs) then
      { s with outcomes := s.outcomes ++ [Outcome.immediate e.value] }
    else
      match e.promise with
      | some p =>
        if jsOptTruthy truthy e.value then
          { s with outcomes := s.outcomes ++ [Outcome.immediate e.value] }
        else
          { s with outcomes := s.outcomes ++ [Outcome.attached p] }
      | none => startComp truthy t e s
  | none => startComp truthy t ⟨none, none, none⟩ s

/-- Settlement of the `await f(...args)` of the `i`-th suspended executor.
On success the continuation runs `Object.assign(cached, {at, value,
promise: null})` on the (aliased) entry object and, when `!hasOldCache`,
resolves its promise with `cached.value`.  On failure the async executor
throws: nothing runs, the constructed promise is left pending, the entry is
left exactly as it was (the in-flight marker included). -/
def memComplete {T : Type} (i : Nat) (r : Except Unit T) (s : MemState T) :
    MemState T :=
  match s.pendings.get? i with
  | none => s
  | some pc =>
    let rest := s.pendings.take i ++ s.pendings.drop (i + 1)
    match r with
    | Except.error _ => { s with pendings := rest }
    | Except.ok v =>
      let s1 := { s with
        pendings := rest
        entry := some ⟨some pc.tStart, some v, none⟩ }
      if pc.hasOld then s1
      else { s1 with proms := setProm s1.proms pc.pid (PromStatus.resolvedWith (some v)) }

inductive MemEv (T : Type) where
  | call : Int → MemEv T
  | complete : Nat → Except Unit T → MemEv T
deriving Repr

def memStep {T : Type} (truthy : T → Bool) (timeMs : Int) (s : MemState T) :
    MemEv T → MemState T
  | MemEv.call t => memCall truthy timeMs t s
  | MemEv.complete i r => memComplete i r s

def memRunFrom {T : Type} (truthy : T → Bool) (timeMs : Int) (s : MemState T)
    (evs : List (MemEv T)) : MemState T :=
  evs.foldl (memStep truthy timeMs) s

def memRun {T : Type} (truthy : T → Bool) (timeMs : Int)
    (evs : List (MemEv T)) : MemState T :=
  memRunFrom truthy timeMs (memInit T) evs

/-- States of the memory backend reachable from the empty cache. -/
def MemReachable {T : Type} (truthy : T → Bool) (timeMs : Int)
    (s : MemState T) : Prop :=
  ∃ evs, memRun truthy timeMs evs = s

/-- Truthiness of JS numbers (0 is falsy), used to instantiate `T := Int`
in concrete executions. -/
def truthyInt (v : Int) : Bool := v != 0

/-! ### Redis cache

`redisCache` reads the record for the key from the store and either returns a
fresh value, returns a stale value while firing `renewRedisCache` without
awaiting it, or (cold) awaits `renewRedisCache` and hands its result to the
caller.  A renewal (`renewRedisCache`) is a task that suspends at
`await redlock.lock(key + '-lock', 3 min)`, then at `await f(...args)`, then
at `await redis.set(key, JSON.stringify({at: Date.now(), value}))`, and after
the set completes synchronously unlocks and resolves its promise.  The store
and the lock are the external collaborators; the lock is modelled as a
correct named mutex (exclusive until released), its lease bookkeeping stays
inside the lock service.  One cache key is modelled; distinct keys share no
state. -/

structure RedisRecord (T : Type) where
  at' : Int
  value : T
deriving DecidableEq, Repr

/-- Program counter of one suspended `renewRedisCache` task: waiting on the
lock, waiting on `f`, or waiting on `redis.set` of the already-serialized
record (whose `at` was `Date.now()` at set-issue time, right after `f`
resolved). -/
inductive RPC (T : Type) where
  | waitLock : RPC T
  | waitF : RPC T
  | waitSet : RedisRecord T → RPC T
deriving DecidableEq, Repr

structure RTask (T : Type) where
  id : Nat
  pc : RPC T
deriving DecidableEq, Repr

structure RedisState (T : Type) where
  store : Option (RedisRecord T)
  lockHolder : Option Nat
  tasks : List (RTask T)
  proms : List (Nat × PromStatus T)
  nextTid : Nat
  fCalls : Nat
  writeLog : List (Nat × RedisRecord T)
  outcomes : List (Outcome T)
deriving DecidableEq, Repr

def redisInit (T : Type) : RedisState T :=
  ⟨none, none, [], [], 0, 0, [], []⟩

/-- Invoking `renewRedisCache(key, f, timeMs)(...args)`: the returned promise
is created and its executor runs synchronously up to `await redlock.lock`,
leaving a task parked on the lock. -/
def spawnRenew {T : Type} (s : RedisState T) : RedisState T × Nat :=
  let tid := s.nextTid
  ({ s with
      tasks := s.tasks ++ [⟨tid, RPC.waitLock⟩]
      proms := s.proms ++ [(tid, PromStatus.pending)]
      nextTid := tid + 1 }, tid)

/-- One call of the function returned by `redisCache`, with the `await
redis.get(key)` answered from the current store: fresh record → return its
value; expired record → fire a renewal, unawaited, and return the stale
value; no record → start a renewal and attach the caller to its promise. -/
def redisCall {T : Type} (timeMs t : Int) (s : RedisState T) : RedisState T :=
  match s.store with
  | some rec =>
    if isExpired rec.at' t timeMs then
      let sp := spawnRenew s
      { sp.1 with outcomes := sp.1.outcomes ++ [Outcome.immediate (some rec.value)] }
    else
      { s with outcomes := s.outcomes ++ [Outcome.immediate (some rec.value)] }
  | none =>
    let sp := spawnRenew s
    { sp.1 with outcomes := sp.1.outcomes ++ [Outcome.attached sp.2] }

def findTask {T : Type} (tasks : List (RTask T)) (i : Nat) : Option (RTask T) :=
  tasks.find? (fun tk => tk.id == i)

def removeTask {T : Type} (tasks : List (RTask T)) (i : Nat) : List (RTask T) :=
  tasks.filter (fun tk => tk.id != i)

def setTaskPC {T : Type} (tasks : List (RTask T)) (i : Nat) (pc : RPC T) :
    List (RTask T) :=
  tasks.map (fun tk => if tk.id == i then ⟨tk.id, pc⟩ else tk)

/-- The lock service grants the named lock to task `i`.  Only a task parked
at `await redlock.lock` can be granted, and only while no holder exists; the
grantee's continuation immediately issues `await f(...args)`, so the step
both takes the lock and invokes `f`. -/
def redisAcquire {T : Type} (i : Nat) (s : RedisState T) : RedisState T :=
  match findTask s.tasks i with
  | some tk =>
    match tk.pc with
    | RPC.waitLock =>
      match s.lockHolder with
      | none =>
        { s with
          lockHolder := some i
          tasks := setTaskPC s.tasks i RPC.waitF
          fCalls := s.fCalls + 1 }
      | some _ => s
    | _ => s
  | none => s

/-- The lock service gives up on task `i` (`redlock.lock` rejects): the async
executor dies at the `await`, its promise stays pending forever. -/
def redisLockFail {T : Type} (i : Nat) (s : RedisState T) : RedisState T :=
  match findTask s.tasks i with
  | some tk =>
    match tk.pc with
    | RPC.waitLock => { s with tasks := removeTask s.tasks i }
    | _ => s
  | none => s

/-- Task `i`'s `await f(...args)` resolves with `v` at time `t`: the
continuation issues `redis.set` with the record `{at: Date.now(), value}`
serialized now, and suspends on the set. -/
def redisFOk {T : Type} (i : Nat) (t : Int) (v : T) (s : RedisState T) :
    RedisState T :=
  match findTask s.tasks i with
  | some tk =>
    match tk.pc with
    | RPC.waitF => { s with tasks := setTaskPC s.tasks i (RPC.waitSet ⟨t, v⟩) }
    | _ => s
  | none => s

/-- Task `i`'s `await f(...args)` rejects: the executor dies without ever
reaching `lock.unlock()`, so the lock stays held and the task's promise
stays pending. -/
def redisFFail {T : Type} (i : Nat) (s : RedisState T) : RedisState T :=
  match findTask s.tasks i with
  | some tk =>
    match tk.pc with
    | RPC.waitF => { s with tasks := removeTask s.tasks i }
    | _ => s
  | none => s

/-- Task `i`'s `await redis.set(...)` completes: the record becomes visible
in the store and the continuation synchronously runs `lock.unlock();
resolve(value)`. -/
def redisSetOk {T : Type} (i : Nat) (s : RedisState T) : RedisState T :=
  match findTask s.tasks i with
  | some tk =>
    match tk.pc with
    | RPC.waitSet rec =>
      { s with
        store := some rec
        writeLog := s.writeLog ++ [(i, rec)]
        lockHolder := none
        proms := setProm s.proms i (PromStatus.resolvedWith (some rec.value))
        tasks := removeTask s.tasks i }
    | _ => s
  | none => s

/-- Task `i`'s `await redis.set(...)` rejects: nothing was written, the
executor dies before `lock.unlock()`, the lock stays held and the task's
promise stays pending. -/
def redisSetFail {T : Type} (i : Nat) (s : RedisState T) : RedisState T :=
  match findTask s.tasks i with
  | some tk =>
    match tk.pc with
    | RPC.waitSet _ => { s with tasks := removeTask s.tasks i }
    | _ => s
  | none => s

inductive RedisEv (T : Type) where
  | rcall : Int → RedisEv T
  | acquire : Nat → RedisEv T
  | lockGiveUp : Nat → RedisEv T
  | fOk : Nat → Int → T → RedisEv T
  | fFail : Nat → RedisEv T
  | setOk : Nat → RedisEv T
  | setFail : Nat → RedisEv T
deriving Repr

def redisStep {T : Type} (timeMs : Int) (s : RedisState T) :
    RedisEv T → RedisState T
  | RedisEv.rcall t => redisCall timeMs t s
  | RedisEv.acquire i => redisAcquire i s
  | RedisEv.lockGiveUp i => redisLockFail i s
  | RedisEv.fOk i t v => redisFOk i t v s
  | RedisEv.fFail i => redisFFail i s
  | RedisEv.setOk i => redisSetOk i s
  | RedisEv.setFail i => redisSetFail i s

def redisRunFrom {T : Type} (timeMs : Int) (s : RedisState T)
    (evs : List (RedisEv T)) : RedisState T :=
  evs.foldl (redisStep timeMs) s

def redisRun {T : Type} (timeMs : Int) (evs : List (RedisEv T)) : RedisState T :=
  redisRunFrom timeMs (redisInit T) evs

/-- States of the distributed backend reachable from the empty store. -/
def RedisReachable {T : Type} (timeMs : Int) (s : RedisState T) : Prop :=
  ∃ evs, redisRun timeMs evs = s

/-! ### Helper lemmas -/

theorem foldl_preserve {α β : Type} (f : α → β → α) (P : α → Prop)
    (hs : ∀ a b, P a → P (f a b)) :
    ∀ (l : List β) (a : α), P a → P (List.foldl f a l) := by
  intro l
  induction l with
  | nil => intro a ha; exact ha
  | cons b tl ih => intro a ha; exact ih (f a b) (hs a b ha)

theorem memRunFrom_append {T : Type} (truthy : T → Bool) (timeMs : Int)
    (s : MemState T) (l1 l2 : List (MemEv T)) :
    memRunFrom truthy timeMs s (l1 ++ l2) =
      memRunFrom truthy timeMs (memRunFrom truthy timeMs s l1) l2 := by
  simp [memRunFrom, List.foldl_append]

/-- A call that finds an entry whose `at` field is still `undefined` takes the
`!isExpired` branch (`NaN > timeMs` is `false`) and returns the entry's
(possibly `undefined`) `value` straight away. -/
theorem memCall_at_undefined {T : Type} (truthy : T → Bool) (timeMs t : Int)
    (s : MemState T) (e : MemEntry T) (he : s.entry = some e)
    (ha : e.at' = none) :
    memCall truthy timeMs t s =
      { s with outcomes := s.outcomes ++ [Outcome.immediate e.value] } := by
  unfold memCall
  rw [he]
  simp [ha, isExpiredOpt]

/-- Completion events are no-ops once no computation is suspended. -/
theorem memComplete_no_pending {T : Type} (i : Nat) (r : Except Unit T)
    (s : MemState T) (h : s.pendings = []) : memComplete i r s = s := by
  unfold memComplete
  rw [h]
  simp

/-- A call that finds a truthy value in the entry returns it immediately and
changes nothing else, whatever the timestamps: when the record is fresh via
the `!isExpired` branch, and when it is expired via `value || promise` with a
truthy `value`.  Requires the in-flight marker to be set in the expired case,
which is what `promise = some p` provides. -/
theorem memCall_truthy_value {T : Type} (truthy : T → Bool) (timeMs t a : Int)
    (v : T) (p : Nat) (s : MemState T)
    (he : s.entry = some ⟨some a, some v, some p⟩) (hv : truthy v = true) :
    memCall truthy timeMs t s =
      { s with outcomes := s.outcomes ++ [Outcome.immediate (some v)] } := by
  unfold memCall
  rw [he]
  cases hE : isExpired a t timeMs <;>
    simp [isExpiredOpt, hE, jsOptTruthy, hv]

/-- The key-poisoning configuration left behind by a failed cold
computation: the entry records neither timestamp nor value, its in-flight
marker points at the dead executor's promise `pid`, nothing is suspended
any more, `f` ran `n` times, and the dead executor's promise is recorded
pending. -/
def MemPoisoned {T : Type} (pid n : Nat) (s : MemState T) : Prop :=
  s.entry = some ⟨none, none, some pid⟩ ∧ s.pendings = [] ∧
    s.proms = [(pid, PromStatus.pending)] ∧ s.fCalls = n

theorem memStep_poisoned {T : Type} (truthy : T → Bool) (timeMs : Int)
    (pid n : Nat) (s : MemState T) (h : MemPoisoned pid n s) :
    ∀ ev, MemPoisoned pid n (memStep truthy timeMs s ev) := by
  obtain ⟨he, hp, hm, hf⟩ := h
  intro ev
  cases ev with
  | call t =>
    rw [memStep, memCall_at_undefined truthy timeMs t s _ he rfl]
    exact ⟨he, hp, hm, hf⟩
  | complete i r =>
    rw [memStep, memComplete_no_pending i r s hp]
    exact ⟨he, hp, hm, hf⟩

theorem memRunFrom_poisoned {T : Type} (truthy : T → Bool) (timeMs : Int)
    (pid n : Nat) (s : MemState T) (h : MemPoisoned pid n s)
    (evs : List (MemEv T)) :
    MemPoisoned pid n (memRunFrom truthy timeMs s evs) :=
  foldl_preserve (memStep truthy timeMs) (MemPoisoned pid n)
    (fun s ev hs => memStep_poisoned truthy timeMs pid n s hs ev) evs s h

/-- State reached by a cold call at time `t` whose computation then fails. -/
theorem memColdFail_state {T : Type} (truthy : T → Bool) (timeMs t : Int) :
    memRun truthy timeMs [MemEv.call t, MemEv.complete 0 (Except.error ())] =
      ⟨some ⟨none, none, some 0⟩, [], [(0, PromStatus.pending)], 1, 1,
        [Outcome.attached 0]⟩ := rfl

/-- A call observing a stale record with a truthy value and a clear in-flight
marker starts a renewal whose promise is resolved with the stale value in the
same synchronous segment, before the renewal completes. -/
theorem memCall_stale_truthy_start {T : Type} (truthy : T → Bool)
    (timeMs t a : Int) (v : T) (s : MemState T)
    (he : s.entry = some ⟨some a, some v, none⟩)
    (hx : isExpired a t timeMs = true) (hv : truthy v = true) :
    memCall truthy timeMs t s =
      { s with
        entry := some ⟨some a, some v, some s.nextPid⟩
        pendings := s.pendings ++ [⟨s.nextPid, true, t⟩]
        proms := s.proms ++ [(s.nextPid, PromStatus.resolvedWith (some v))]
        nextPid := s.nextPid + 1
        fCalls := s.fCalls + 1
        outcomes := s.outcomes ++ [Outcome.attached s.nextPid] } := by
  unfold memCall
  rw [he]
  simp [isExpiredOpt, hx, startComp, jsOptTruthy, hv]

/-- A `redisCache` call observing a stale record returns the stale value in
its own segment and leaves behind a renewal task parked on the lock, with a
fresh pending promise the caller does not hold. -/
theorem redisCall_stale {T : Type} (timeMs t : Int) (rec : RedisRecord T)
    (s : RedisState T) (hs : s.store = some rec)
    (hx : isExpired rec.at' t timeMs = true) :
    redisCall timeMs t s =
      { s with
        tasks := s.tasks ++ [⟨s.nextTid, RPC.waitLock⟩]
        proms := s.proms ++ [(s.nextTid, PromStatus.pending)]
        nextTid := s.nextTid + 1
        outcomes := s.outcomes ++ [Outcome.immediate (some rec.value)] } := by
  unfold redisCall
  rw [hs]
  simp [hx, spawnRenew, hs]

/-- A `redisCache` call observing a fresh record only returns the value: no
lock interaction, no task, no write, no computation. -/
theorem redisCall_fresh {T : Type} (timeMs t : Int) (rec : RedisRecord T)
    (s : RedisState T) (hs : s.store = some rec)
    (hx : isExpired rec.at' t timeMs = false) :
    redisCall timeMs t s =
      { s with outcomes := s.outcomes ++ [Outcome.immediate (some rec.value)] } := by
  unfold redisCall
  rw [hs]
  simp [hx]

/-! ### Claim C1 — single-flight on cold start -/

/-- Claim C1 (code bug): with a cold key and two simultaneous callers the
source invokes `f` exactly once, but the second caller does not share the
first caller's promise.  The in-flight entry has `at` still `undefined`, so
`isExpired` computes `NaN > timeMs = false`, the entry is treated as fresh,
and the second caller is handed the entry's `value` — `undefined`.  Only the
first caller's promise resolves with the computed `42`; the claim that all
callers resolve to the single computed value fails. -/
theorem c1_cold_concurrent_caller_gets_undefined :
    memRun truthyInt 1000
        [MemEv.call 0, MemEv.call 0, MemEv.complete 0 (Except.ok 42)] =
      ⟨some ⟨some 0, some 42, none⟩, [],
        [(0, PromStatus.resolvedWith (some 42))], 1, 1,
        [Outcome.attached 0, Outcome.immediate none]⟩ := by
  decide

/-! ### Claim C2 — non-blocking stale serve -/

/-- Counterexample to claim C2 as stated: a stale memory record holding the
falsy value `0` (with no renewal in flight) does not yield its value to the
caller.  `hasOldCache = cached && cached.value` is `0`, hence falsy, so the
stale value is withheld: the caller is attached to the renewal's promise,
which is still pending at return time and later resolves with the renewal's
fresh result `7`, not with the record's `0`. -/
theorem c2_falsy_stale_value_blocks_caller :
    (memRun truthyInt 10
        [MemEv.call 0, MemEv.complete 0 (Except.ok 0),
          MemEv.call 100]).outcomes.get? 1 = some (Outcome.attached 1) ∧
    promLookup (memRun truthyInt 10
        [MemEv.call 0, MemEv.complete 0 (Except.ok 0),
          MemEv.call 100]).proms 1 = some PromStatus.pending ∧
    promLookup (memRun truthyInt 10
        [MemEv.call 0, MemEv.complete 0 (Except.ok 0),
          MemEv.call 100, MemEv.complete 0 (Except.ok 7)]).proms 1 =
      some (PromStatus.resolvedWith (some 7)) := by
  decide

/-- Claim C2 as amended: a call observing a stale record with no renewal in
flight returns the record's value without waiting for the renewal it starts,
provided (memory backend) the stored value is truthy — the caller's promise
is already resolved with the stale value in the call's own synchronous
segment, while the renewal is merely suspended; the distributed backend
returns the stale value unconditionally and does not attach the caller to
the renewal's promise. -/
theorem c2_stale_serve_nonblocking :
    (∀ (T : Type) (truthy : T → Bool) (timeMs t a : Int) (v : T)
        (s : MemState T),
      s.entry = some ⟨some a, some v, none⟩ →
      isExpired a t timeMs = true → truthy v = true →
      memCall truthy timeMs t s =
        { s with
          entry := some ⟨some a, some v, some s.nextPid⟩
          pendings := s.pendings ++ [⟨s.nextPid, true, t⟩]
          proms := s.proms ++ [(s.nextPid, PromStatus.resolvedWith (some v))]
          nextPid := s.nextPid + 1
          fCalls := s.fCalls + 1
          outcomes := s.outcomes ++ [Outcome.attached s.nextPid] }) ∧
    (∀ (T : Type) (timeMs t : Int) (rec : RedisRecord T) (s : RedisState T),
      s.store = some rec → isExpired rec.at' t timeMs = true →
      redisCall timeMs t s =
        { s with
          tasks := s.tasks ++ [⟨s.nextTid, RPC.waitLock⟩]
          proms := s.proms ++ [(s.nextTid, PromStatus.pending)]
          nextTid := s.nextTid + 1
          outcomes := s.outcomes ++ [Outcome.immediate (some rec.value)] }) :=
  ⟨fun _ truthy timeMs t a v s he hx hv =>
      memCall_stale_truthy_start truthy timeMs t a v s he hx hv,
    fun _ timeMs t rec s hs hx => redisCall_stale timeMs t rec s hs hx⟩

/-- Witness for the amended claim C2 at a concrete stale state in each
backend. -/
theorem c2_stale_serve_nonblocking_witness :
    (isExpired 0 100 10 = true ∧ truthyInt 5 = true ∧
      memCall truthyInt 10 100
          ⟨some ⟨some 0, some 5, none⟩, [], [], 1, 1, []⟩ =
        ⟨some ⟨some 0, some 5, some 1⟩, [⟨1, true, 100⟩],
          [(1, PromStatus.resolvedWith (some 5))], 2, 2,
          [Outcome.attached 1]⟩) ∧
    (redisCall 10 100 (⟨some ⟨0, 9⟩, none, [], [], 0, 0, [], []⟩ : RedisState Int) =
      ⟨some ⟨0, 9⟩, none, [⟨0, RPC.waitLock⟩], [(0, PromStatus.pending)],
        1, 0, [], [Outcome.immediate (some 9)]⟩) :=
  ⟨⟨by decide, by decide,
      c2_stale_serve_nonblocking.1 Int truthyInt 10 100 0 5
        ⟨some ⟨some 0, some 5, none⟩, [], [], 1, 1, []⟩ rfl (by decide)
        (by decide)⟩,
    c2_stale_serve_nonblocking.2 Int 10 100 ⟨0, 9⟩
      ⟨some ⟨0, 9⟩, none, [], [], 0, 0, [], []⟩ rfl (by decide)⟩

/-! ### Claim C3 — self-healing on renewal failure -/

/-- Counterexample to claim C3 as stated: record loaded with `5` at `t = 0`
(`staleAfterMs = 10`), a renewal starts at `t = 100` and its computation
fails, and a next call arrives at `t = 200`, well past `staleAfterMs`.  The
record is indeed untouched and servable — but no fresh renewal starts: `f`
has still run only twice, nothing is suspended, and the entry's in-flight
marker still points at the dead renewal's promise, so the call just returns
the stale `5`. -/
theorem c3_failed_renewal_never_retried :
    memRun truthyInt 10
        [MemEv.call 0, MemEv.complete 0 (Except.ok 5), MemEv.call 100,
          MemEv.complete 0 (Except.error ()), MemEv.call 200] =
      ⟨some ⟨some 0, some 5, some 1⟩, [],
        [(0, PromStatus.resolvedWith (some 5)),
          (1, PromStatus.resolvedWith (some 5))], 2, 2,
        [Outcome.attached 0, Outcome.attached 1,
          Outcome.immediate (some 5)]⟩ := by
  decide

/-- A call that finds a record entry whose timestamp and in-flight marker
are both set only appends one outcome: whichever of the freshness,
`value || promise`-value or `value || promise`-promise branches it takes,
it leaves entry, suspended executors, promise table and `f`-invocation
count untouched. -/
theorem memCall_marked {T : Type} (truthy : T → Bool) (timeMs t a : Int)
    (v : T) (p : Nat) (s : MemState T)
    (he : s.entry = some ⟨some a, some v, some p⟩) :
    ∃ o, memCall truthy timeMs t s =
      { s with outcomes := s.outcomes ++ [o] } := by
  unfold memCall
  rw [he]
  cases hE : isExpired a t timeMs with
  | false =>
    exact ⟨Outcome.immediate (some v), by simp [isExpiredOpt, hE]⟩
  | true =>
    cases ht : truthy v with
    | true =>
      exact ⟨Outcome.immediate (some v),
        by simp [isExpiredOpt, hE, jsOptTruthy, ht]⟩
    | false =>
      exact ⟨Outcome.attached p, by simp [isExpiredOpt, hE, jsOptTruthy, ht]⟩

/-- The configuration left behind by a failed renewal over an existing
record: entry frozen at `{at: a, value: v, promise: p}` with nothing
suspended, promise table and `f`-invocation count fixed. -/
def MemStalled {T : Type} (a : Int) (v : T) (p : Nat)
    (pr : List (Nat × PromStatus T)) (n : Nat) (s : MemState T) : Prop :=
  s.entry = some ⟨some a, some v, some p⟩ ∧ s.pendings = [] ∧
    s.proms = pr ∧ s.fCalls = n

theorem memStep_stalled {T : Type} (truthy : T → Bool) (timeMs a : Int)
    (v : T) (p : Nat) (pr : List (Nat × PromStatus T)) (n : Nat)
    (s : MemState T) (h : MemStalled a v p pr n s) :
    ∀ ev, MemStalled a v p pr n (memStep truthy timeMs s ev) := by
  obtain ⟨he, hp, hm, hf⟩ := h
  intro ev
  cases ev with
  | call t =>
    obtain ⟨o, ho⟩ := memCall_marked truthy timeMs t a v p s he
    rw [memStep, ho]
    exact ⟨he, hp, hm, hf⟩
  | complete i r =>
    rw [memStep, memComplete_no_pending i r s hp]
    exact ⟨he, hp, hm, hf⟩

theorem memRunFrom_stalled {T : Type} (truthy : T → Bool) (timeMs a : Int)
    (v : T) (p : Nat) (pr : List (Nat × PromStatus T)) (n : Nat)
    (s : MemState T) (h : MemStalled a v p pr n s) (evs : List (MemEv T)) :
    MemStalled a v p pr n (memRunFrom truthy timeMs s evs) :=
  foldl_preserve (memStep truthy timeMs) (MemStalled a v p pr n)
    (fun s ev hs => memStep_stalled truthy timeMs a v p pr n s hs ev) evs s h

/-- A call observing a stale record with a falsy value and a set in-flight
marker takes the `value || promise` branch to the promise: the caller is
attached to the marker's promise and nothing else changes. -/
theorem memCall_stale_falsy {T : Type} (truthy : T → Bool) (timeMs t a : Int)
    (v : T) (p : Nat) (s : MemState T)
    (he : s.entry = some ⟨some a, some v, some p⟩) (hv : truthy v = false)
    (hx : isExpired a t timeMs = true) :
    memCall truthy timeMs t s =
      { s with outcomes := s.outcomes ++ [Outcome.attached p] } := by
  unfold memCall
  rw [he]
  simp [isExpiredOpt, hx, jsOptTruthy, hv]

/-- Claim C3 as amended: a failed renewal leaves the previous record
untouched — entry, promise table and `f`-invocation count unchanged — and
because the failure path never clears the in-flight marker, the key is
frozen from then on: no sequence of further calls or completions ever
changes the entry, the promise table or the number of `f` invocations, so
staleness is never acted on again and no fresh renewal ever starts.  A
later call returns the stale value immediately when the stored value is
truthy; when the stored value is falsy it is instead handed the dead
renewal's promise (which, the promise table being frozen, stays pending
forever, so that caller never settles). -/
theorem c3_failed_renewal_keeps_record_but_never_retries :
    (∀ (T : Type) (i : Nat) (s : MemState T),
      (memComplete i (Except.error ()) s).entry = s.entry ∧
      (memComplete i (Except.error ()) s).proms = s.proms ∧
      (memComplete i (Except.error ()) s).fCalls = s.fCalls) ∧
    (∀ (T : Type) (truthy : T → Bool) (timeMs a : Int) (v : T) (p : Nat)
        (s : MemState T) (more : List (MemEv T)),
      s.entry = some ⟨some a, some v, some p⟩ → s.pendings = [] →
      (memRunFrom truthy timeMs s more).entry = some ⟨some a, some v, some p⟩ ∧
      (memRunFrom truthy timeMs s more).pendings = [] ∧
      (memRunFrom truthy timeMs s more).proms = s.proms ∧
      (memRunFrom truthy timeMs s more).fCalls = s.fCalls) ∧
    (∀ (T : Type) (truthy : T → Bool) (timeMs t a : Int) (v : T) (p : Nat)
        (s : MemState T),
      s.entry = some ⟨some a, some v, some p⟩ → truthy v = true →
      memCall truthy timeMs t s =
        { s with outcomes := s.outcomes ++ [Outcome.immediate (some v)] }) ∧
    (∀ (T : Type) (truthy : T → Bool) (timeMs t a : Int) (v : T) (p : Nat)
        (s : MemState T),
      s.entry = some ⟨some a, some v, some p⟩ → truthy v = false →
      isExpired a t timeMs = true →
      memCall truthy timeMs t s =
        { s with outcomes := s.outcomes ++ [Outcome.attached p] }) := by
  refine ⟨?_, ?_, ?_, ?_⟩
  · intro T i s
    unfold memComplete
    cases h : s.pendings.get? i <;> simp
  · intro T truthy timeMs a v p s more he hp
    exact memRunFrom_stalled truthy timeMs a v p s.proms s.fCalls s
      ⟨he, hp, rfl, rfl⟩ more
  · intro T truthy timeMs t a v p s he hv
    exact memCall_truthy_value truthy timeMs t a v p s he hv
  · intro T truthy timeMs t a v p s he hv hx
    exact memCall_stale_falsy truthy timeMs t a v p s he hv hx

/-- Witness for the amended claim C3, at the two concrete post-failure
states: a truthy stale value `5` served immediately at `t = 200` with the
state frozen under that call, and a falsy stale value `0` whose `t = 200`
caller is attached to the dead renewal's promise `1`. -/
theorem c3_failed_renewal_witness :
    (truthyInt 5 = true ∧ truthyInt 0 = false ∧ isExpired 0 200 10 = true) ∧
    (memRunFrom truthyInt 10
        (⟨some ⟨some 0, some 5, some 1⟩, [],
          [(0, PromStatus.resolvedWith (some 5)),
            (1, PromStatus.resolvedWith (some 5))], 2, 2, []⟩ : MemState Int)
        [MemEv.call 200]).fCalls = 2 ∧
    memCall truthyInt 10 200
        (⟨some ⟨some 0, some 5, some 1⟩, [],
          [(0, PromStatus.resolvedWith (some 5)),
            (1, PromStatus.resolvedWith (some 5))], 2, 2, []⟩ : MemState Int) =
      ⟨some ⟨some 0, some 5, some 1⟩, [],
        [(0, PromStatus.resolvedWith (some 5)),
          (1, PromStatus.resolvedWith (some 5))], 2, 2,
        [Outcome.immediate (some 5)]⟩ ∧
    memCall truthyInt 10 200
        (⟨some ⟨some 0, some 0, some 1⟩, [],
          [(0, PromStatus.resolvedWith (some 0)), (1, PromStatus.pending)],
          2, 2, []⟩ : MemState Int) =
      ⟨some ⟨some 0, some 0, some 1⟩, [],
        [(0, PromStatus.resolvedWith (some 0)), (1, PromStatus.pending)],
        2, 2, [Outcome.attached 1]⟩ :=
  ⟨⟨by decide, by decide, by decide⟩,
    (c3_failed_renewal_keeps_record_but_never_retries.2.1 Int truthyInt 10 0 5 1
      ⟨some ⟨some 0, some 5, some 1⟩, [],
        [(0, PromStatus.resolvedWith (some 5)),
          (1, PromStatus.resolvedWith (some 5))], 2, 2, []⟩
      [MemEv.call 200] rfl rfl).2.2.2,
    c3_failed_renewal_keeps_record_but_never_retries.2.2.1 Int truthyInt 10 200
      0 5 1
      ⟨some ⟨some 0, some 5, some 1⟩, [],
        [(0, PromStatus.resolvedWith (some 5)),
          (1, PromStatus.resolvedWith (some 5))], 2, 2, []⟩ rfl (by decide),
    c3_failed_renewal_keeps_record_but_never_retries.2.2.2 Int truthyInt 10 200
      0 0 1
      ⟨some ⟨some 0, some 0, some 1⟩, [],
        [(0, PromStatus.resolvedWith (some 0)), (1, PromStatus.pending)],
        2, 2, []⟩ rfl (by decide) (by decide)⟩

/-! ### Claim C5 — cold failure poisons the key -/

/-- Claim C5: if the first (cold) computation for a key fails, the in-flight
entry is never cleared and no record is written; after any further events
whatsoever the entry still carries no timestamp and no value while its
in-flight marker still points at promise `0`, nothing is suspended, the
first caller's promise is still pending (it never settles), `f` has run
exactly once and is never invoked again, and one more call — at any time —
returns `undefined` immediately, changing nothing but the outcome log. -/
theorem c5_cold_failure_poisons_key (T : Type) (truthy : T → Bool)
    (timeMs t : Int) (more : List (MemEv T)) (t2 : Int) :
    (memRunFrom truthy timeMs
        (memRun truthy timeMs
          [MemEv.call t, MemEv.complete 0 (Except.error ())]) more).entry =
      some ⟨none, none, some 0⟩ ∧
    (memRunFrom truthy timeMs
        (memRun truthy timeMs
          [MemEv.call t, MemEv.complete 0 (Except.error ())]) more).pendings =
      [] ∧
    (memRunFrom truthy timeMs
        (memRun truthy timeMs
          [MemEv.call t, MemEv.complete 0 (Except.error ())]) more).proms =
      [(0, PromStatus.pending)] ∧
    (memRunFrom truthy timeMs
        (memRun truthy timeMs
          [MemEv.call t, MemEv.complete 0 (Except.error ())]) more).fCalls =
      1 ∧
    memCall truthy timeMs t2
        (memRunFrom truthy timeMs
          (memRun truthy timeMs
            [MemEv.call t, MemEv.complete 0 (Except.error ())]) more) =
      { memRunFrom truthy timeMs
          (memRun truthy timeMs
            [MemEv.call t, MemEv.complete 0 (Except.error ())]) more with
        outcomes :=
          (memRunFrom truthy timeMs
            (memRun truthy timeMs
              [MemEv.call t, MemEv.complete 0 (Except.error ())]) more).outcomes
            ++ [Outcome.immediate none] } := by
  have hbase : MemPoisoned 0 1
      (memRun truthy timeMs [MemEv.call t, MemEv.complete 0 (Except.error ())]) := by
    rw [memColdFail_state]
    exact ⟨rfl, rfl, rfl, rfl⟩
  have h := memRunFrom_poisoned truthy timeMs 0 1 _ hbase more
  obtain ⟨he, hp, hm, hf⟩ := h
  exact ⟨he, hp, hm, hf,
    memCall_at_undefined truthy timeMs t2 _ _ he rfl⟩

/-! ### Claim C6 — fresh-hit frame -/

/-- Claim C6: a call observing a fresh record returns its stored value and
changes nothing — in the memory backend `f` is not invoked and no renewal
starts (the whole state except the outcome log is unchanged), and in the
distributed backend additionally no lock is acquired and no store write
happens (store, lock, tasks and write log are unchanged). -/
theorem c6_fresh_hit_frame :
    (∀ (T : Type) (truthy : T → Bool) (timeMs t a : Int) (v : T)
        (p : Option Nat) (s : MemState T),
      s.entry = some ⟨some a, some v, p⟩ → isExpired a t timeMs = false →
      memCall truthy timeMs t s =
        { s with outcomes := s.outcomes ++ [Outcome.immediate (some v)] }) ∧
    (∀ (T : Type) (timeMs t : Int) (rec : RedisRecord T) (s : RedisState T),
      s.store = some rec → isExpired rec.at' t timeMs = false →
      redisCall timeMs t s =
        { s with outcomes := s.outcomes ++ [Outcome.immediate (some rec.value)] }) := by
  constructor
  · intro T truthy timeMs t a v p s he hx
    unfold memCall
    rw [he]
    simp [isExpiredOpt, hx]
  · intro T timeMs t rec s hs hx
    exact redisCall_fresh timeMs t rec s hs hx

/-- Witness for claim C6 at a concrete fresh record in each backend. -/
theorem c6_fresh_hit_frame_witness :
    (isExpired 0 5 10 = false ∧
      memCall truthyInt 10 5
          ⟨some ⟨some 0, some 3, none⟩, [],
            [(0, PromStatus.resolvedWith (some 3))], 1, 1, []⟩ =
        ⟨some ⟨some 0, some 3, none⟩, [],
          [(0, PromStatus.resolvedWith (some 3))], 1, 1,
          [Outcome.immediate (some 3)]⟩) ∧
    (redisCall 10 5 (⟨some ⟨0, 9⟩, none, [], [], 0, 0, [], []⟩ : RedisState Int) =
      ⟨some ⟨0, 9⟩, none, [], [], 0, 0, [], [Outcome.immediate (some 9)]⟩) :=
  ⟨⟨by decide,
      c6_fresh_hit_frame.1 Int truthyInt 10 5 0 3 none
        ⟨some ⟨some 0, some 3, none⟩, [],
          [(0, PromStatus.resolvedWith (some 3))], 1, 1, []⟩ rfl (by decide)⟩,
    c6_fresh_hit_frame.2 Int 10 5 ⟨0, 9⟩
      ⟨some ⟨0, 9⟩, none, [], [], 0, 0, [], []⟩ rfl (by decide)⟩

/-! ### Claim C4 — cold-path failure propagation

Redis-side machinery: after a cold call whose renewal dies (here: `f`
rejects while the lock is held), the lock is stuck with the dead task, every
surviving or future task is parked on the lock forever, and the dead task's
promise can never be touched again. -/

theorem find?_append_of_some {α : Type} (p : α → Bool) (l1 l2 : List α)
    (x : α) (h : l1.find? p = some x) : (l1 ++ l2).find? p = some x := by
  induction l1 with
  | nil => simp [List.find?] at h
  | cons a tl ih =>
    by_cases hp : p a
    · rw [List.find?_cons_of_pos _ hp] at h
      simpa [List.find?_cons_of_pos _ hp] using h
    · rw [List.find?_cons_of_neg _ (by simpa using hp)] at h
      simpa [List.find?_cons_of_neg _ (by simpa using hp)] using ih h

theorem promLookup_append {T : Type} (proms : List (Nat × PromStatus T))
    (tail : List (Nat × PromStatus T)) (p : Nat) (st : PromStatus T)
    (h : promLookup proms p = some st) :
    promLookup (proms ++ tail) p = some st := by
  unfold promLookup at h ⊢
  cases hf : proms.find? (fun q => q.1 == p) with
  | none => rw [hf] at h; simp at h
  | some q =>
    rw [hf] at h
    rw [find?_append_of_some _ _ _ _ hf]
    exact h

theorem findTask_mem {T : Type} (tasks : List (RTask T)) (i : Nat)
    (tk : RTask T) (h : findTask tasks i = some tk) :
    tk ∈ tasks ∧ tk.id = i := by
  refine ⟨List.mem_of_find?_eq_some h, ?_⟩
  have := List.find?_some h
  simpa using this

/-- The wedged configuration after a renewal for a cold key dies holding the
lock: task `0` is gone, the lock is stuck with it, the store was never
written, the dead task's promise is pending, and every remaining task is
still parked on the lock. -/
def RedisWedged {T : Type} (s : RedisState T) : Prop :=
  s.lockHolder = some 0 ∧ s.store = none ∧
    promLookup s.proms 0 = some PromStatus.pending ∧
    (∀ tk ∈ s.tasks, tk.pc = RPC.waitLock) ∧ 1 ≤ s.nextTid

theorem redisStep_wedged {T : Type} (timeMs : Int) (s : RedisState T)
    (h : RedisWedged s) : ∀ ev, RedisWedged (redisStep timeMs s ev) := by
  obtain ⟨st, lh, tks, pr, nt, fc, wl, oc⟩ := s
  obtain ⟨hl, hst, hpr, htk, hn⟩ := h
  subst hl
  subst hst
  intro ev
  cases ev with
  | rcall t =>
    refine ⟨rfl, rfl, promLookup_append _ _ _ _ hpr, ?_, Nat.le_succ_of_le hn⟩
    intro tk hmem
    simp only [redisStep, redisCall, spawnRenew, List.mem_append,
      List.mem_singleton] at hmem
    rcases hmem with hmem | hmem
    · exact htk tk hmem
    · rw [hmem]
  | acquire i =>
    show RedisWedged (redisAcquire i _)
    unfold redisAcquire
    cases hf : findTask tks i with
    | none => exact ⟨rfl, rfl, hpr, htk, hn⟩
    | some tk =>
      obtain ⟨tid, tpc⟩ := tk
      have hpc : tpc = RPC.waitLock := htk ⟨tid, tpc⟩ (findTask_mem tks i _ hf).1
      subst hpc
      exact ⟨rfl, rfl, hpr, htk, hn⟩
  | lockGiveUp i =>
    show RedisWedged (redisLockFail i _)
    unfold redisLockFail
    cases hf : findTask tks i with
    | none => exact ⟨rfl, rfl, hpr, htk, hn⟩
    | some tk =>
      obtain ⟨tid, tpc⟩ := tk
      have hpc : tpc = RPC.waitLock := htk ⟨tid, tpc⟩ (findTask_mem tks i _ hf).1
      subst hpc
      exact ⟨rfl, rfl, hpr,
        fun tk' hm => htk tk' (List.mem_of_mem_filter hm), hn⟩
  | fOk i t v =>
    show RedisWedged (redisFOk i t v _)
    unfold redisFOk
    cases hf : findTask tks i with
    | none => exact ⟨rfl, rfl, hpr, htk, hn⟩
    | some tk =>
      obtain ⟨tid, tpc⟩ := tk
      have hpc : tpc = RPC.waitLock := htk ⟨tid, tpc⟩ (findTask_mem tks i _ hf).1
      subst hpc
      exact ⟨rfl, rfl, hpr, htk, hn⟩
  | fFail i =>
    show RedisWedged (redisFFail i _)
    unfold redisFFail
    cases hf : findTask tks i with
    | none => exact ⟨rfl, rfl, hpr, htk, hn⟩
    | some tk =>
      obtain ⟨tid, tpc⟩ := tk
      have hpc : tpc = RPC.waitLock := htk ⟨tid, tpc⟩ (findTask_mem tks i _ hf).1
      subst hpc
      exact ⟨rfl, rfl, hpr, htk, hn⟩
  | setOk i =>
    show RedisWedged (redisSetOk i _)
    unfold redisSetOk
    cases hf : findTask tks i with
    | none => exact ⟨rfl, rfl, hpr, htk, hn⟩
    | some tk =>
      obtain ⟨tid, tpc⟩ := tk
      have hpc : tpc = RPC.waitLock := htk ⟨tid, tpc⟩ (findTask_mem tks i _ hf).1
      subst hpc
      exact ⟨rfl, rfl, hpr, htk, hn⟩
  | setFail i =>
    show RedisWedged (redisSetFail i _)
    unfold redisSetFail
    cases hf : findTask tks i with
    | none => exact ⟨rfl, rfl, hpr, htk, hn⟩
    | some tk =>
      obtain ⟨tid, tpc⟩ := tk
      have hpc : tpc = RPC.waitLock := htk ⟨tid, tpc⟩ (findTask_mem tks i _ hf).1
      subst hpc
      exact ⟨rfl, rfl, hpr, htk, hn⟩

theorem redisRunFrom_wedged {T : Type} (timeMs : Int) (s : RedisState T)
    (h : RedisWedged s) (evs : List (RedisEv T)) :
    RedisWedged (redisRunFrom timeMs s evs) :=
  foldl_preserve (redisStep timeMs) RedisWedged
    (fun s ev hs => redisStep_wedged timeMs s hs ev) evs s h

/-- State reached by a cold `redisCache` call whose renewal acquires the
lock, invokes `f`, and sees it fail. -/
theorem redisColdFail_state {T : Type} (timeMs t : Int) :
    redisRun (T := T) timeMs
        [RedisEv.rcall t, RedisEv.acquire 0, RedisEv.fFail 0] =
      ⟨none, some 0, [], [(0, PromStatus.pending)], 1, 1, [],
        [Outcome.attached 0]⟩ := rfl

/-- Claim C4 (code bug): a failure during the cold load is not surfaced to
the caller.  In both backends the cold caller is attached to the
computation's promise (`Outcome.attached 0`), and after the computation
fails that promise is still pending after any further events whatsoever —
the executors of `new Promise(async resolve => …)` never capture a `reject`,
so the caller's promise neither resolves nor rejects, ever. -/
theorem c4_cold_failure_not_propagated (T : Type) (truthy : T → Bool)
    (timeMs t : Int) (more : List (MemEv T)) (rmore : List (RedisEv T)) :
    ((memRun truthy timeMs
        [MemEv.call t, MemEv.complete 0 (Except.error ())]).outcomes =
      [Outcome.attached 0] ∧
    promLookup (memRunFrom truthy timeMs
        (memRun truthy timeMs
          [MemEv.call t, MemEv.complete 0 (Except.error ())]) more).proms 0 =
      some PromStatus.pending) ∧
    ((redisRun (T := T) timeMs
        [RedisEv.rcall t, RedisEv.acquire 0, RedisEv.fFail 0]).outcomes =
      [Outcome.attached 0] ∧
    promLookup (redisRunFrom timeMs
        (redisRun (T := T) timeMs
          [RedisEv.rcall t, RedisEv.acquire 0, RedisEv.fFail 0])
        rmore).proms 0 = some PromStatus.pending) := by
  constructor
  · constructor
    · rw [memColdFail_state]
    · have hbase : MemPoisoned 0 1
          (memRun truthy timeMs
            [MemEv.call t, MemEv.complete 0 (Except.error ())]) := by
        rw [memColdFail_state]
        exact ⟨rfl, rfl, rfl, rfl⟩
      have h := memRunFrom_poisoned truthy timeMs 0 1 _ hbase more
      rw [h.2.2.1]
      rfl
  · constructor
    · rw [redisColdFail_state]
    · have hbase : RedisWedged
          (redisRun (T := T) timeMs
            [RedisEv.rcall t, RedisEv.acquire 0, RedisEv.fFail 0]) := by
        rw [redisColdFail_state]
        exact ⟨rfl, rfl, rfl, by intro tk hm; simp at hm, Nat.le.refl⟩
      exact (redisRunFrom_wedged timeMs _ hbase rmore).2.2.1

/-! ### Claim C7 — at most one in-flight computation per key per process

Memory side: the strengthened invariant ties every suspended executor to the
entry's in-flight marker; a new computation starts only when the marker is
absent, which the invariant rules out while an executor is suspended. -/

def MemInv {T : Type} (s : MemState T) : Prop :=
  s.pendings.length ≤ 1 ∧
    ∀ pc ∈ s.pendings, ∃ e, s.entry = some e ∧ e.promise = some pc.pid

theorem memCall_inv {T : Type} (truthy : T → Bool) (timeMs t : Int)
    (s : MemState T) (h : MemInv s) : MemInv (memCall truthy timeMs t s) := by
  obtain ⟨hlen, hpend⟩ := h
  obtain ⟨en, pnd, pr, np, fc, oc⟩ := s
  unfold memCall
  cases en with
  | none =>
    have hemp : pnd = [] := by
      cases pnd with
      | nil => rfl
      | cons pc tl =>
        obtain ⟨e, he, _⟩ := hpend pc (List.mem_cons_self pc tl)
        exact absurd he (by simp)
    subst hemp
    refine ⟨by simp [startComp], ?_⟩
    intro pc hm
    simp only [startComp, List.nil_append, List.mem_singleton] at hm
    subst hm
    exact ⟨_, rfl, rfl⟩
  | some e =>
    cases hx : isExpiredOpt e.at' t timeMs with
    | false =>
      simp only [hx, Bool.not_false, if_pos rfl]
      exact ⟨hlen, hpend⟩
    | true =>
      simp only [hx, Bool.not_true]
      cases hp : e.promise with
      | some p =>
        cases ht : jsOptTruthy truthy e.value <;> simp only [ht] <;>
          exact ⟨hlen, hpend⟩
      | none =>
        have hemp : pnd = [] := by
          cases pnd with
          | nil => rfl
          | cons pc tl =>
            obtain ⟨e2, he2, hpp⟩ := hpend pc (List.mem_cons_self pc tl)
            have : e2 = e := by
              have := he2
              simp only [Option.some.injEq] at this
              exact this.symm
            rw [this] at hpp
            rw [hp] at hpp
            exact absurd hpp (by simp)
        subst hemp
        refine ⟨by simp [startComp], ?_⟩
        intro pc hm
        simp [startComp] at hm
        subst hm
        refine ⟨{ e with promise := some np }, ?_, rfl⟩
        simp [startComp]

theorem memComplete_inv {T : Type} (i : Nat) (r : Except Unit T)
    (s : MemState T) (h : MemInv s) : MemInv (memComplete i r s) := by
  obtain ⟨hlen, hpend⟩ := h
  obtain ⟨en, pnd, pr, np, fc, oc⟩ := s
  unfold memComplete
  dsimp only
  cases hg : pnd.get? i with
  | none => exact ⟨hlen, hpend⟩
  | some pc =>
    have hi1 : 1 ≤ pnd.length := by
      rcases pnd with _ | ⟨a, tl⟩
      · simp at hg
      · simp
    have hone : pnd.length = 1 := Nat.le_antisymm hlen hi1
    obtain ⟨a, ha⟩ := List.length_eq_one.mp hone
    subst ha
    have hi0 : i = 0 := by
      cases i with
      | zero => rfl
      | succ n => simp at hg
    subst hi0
    obtain ⟨ppid, phold, ptst⟩ := pc
    cases r with
    | error u =>
      exact ⟨Nat.zero_le 1, fun pc' hm => absurd hm (List.not_mem_nil pc')⟩
    | ok v =>
      cases phold <;>
        exact ⟨Nat.zero_le 1, fun pc' hm => absurd hm (List.not_mem_nil pc')⟩

theorem memInv_of_reachable {T : Type} (truthy : T → Bool) (timeMs : Int)
    (s : MemState T) (h : MemReachable truthy timeMs s) : MemInv s := by
  obtain ⟨evs, rfl⟩ := h
  refine foldl_preserve (memStep truthy timeMs) MemInv ?_ evs (memInit T)
    ⟨Nat.zero_le 1, fun pc hm => absurd hm (List.not_mem_nil pc)⟩
  intro a ev ha
  cases ev with
  | call t => exact memCall_inv truthy timeMs t a ha
  | complete i r => exact memComplete_inv i r a ha

/-! Redis side: the lock invariant.  Every task past its `await redlock.lock`
is the current lock holder; task ids are distinct and bounded by the id
counter.  Together these give at most one task inside the lock-protected
region (`await f` or `await redis.set`) at any time. -/

theorem setTaskPC_map_id {T : Type} (tasks : List (RTask T)) (i : Nat)
    (pc : RPC T) : (setTaskPC tasks i pc).map RTask.id = tasks.map RTask.id := by
  induction tasks with
  | nil => rfl
  | cons a tl ih =>
    cases h : (a.id == i) <;>
      simp only [setTaskPC, List.map_cons, h, if_true, if_false,
        Bool.false_eq_true, ite_false, ite_true] <;>
      simp only [setTaskPC] at ih <;> rw [ih]

theorem mem_setTaskPC {T : Type} {tk' : RTask T} {tasks : List (RTask T)}
    {i : Nat} {pc : RPC T} (h : tk' ∈ setTaskPC tasks i pc) :
    ∃ tk0, tk0 ∈ tasks ∧
      tk' = if (tk0.id == i) = true then (⟨tk0.id, pc⟩ : RTask T) else tk0 := by
  unfold setTaskPC at h
  obtain ⟨tk0, hm, he⟩ := List.mem_map.mp h
  exact ⟨tk0, hm, he.symm⟩

theorem mem_removeTask {T : Type} {tk : RTask T} {tasks : List (RTask T)}
    {i : Nat} (h : tk ∈ removeTask tasks i) : tk ∈ tasks ∧ tk.id ≠ i := by
  unfold removeTask at h
  have h2 := List.mem_filter.mp h
  refine ⟨h2.1, ?_⟩
  simpa using h2.2

theorem removeTask_map_id_nodup {T : Type} {tasks : List (RTask T)} (i : Nat)
    (h : (tasks.map RTask.id).Nodup) :
    ((removeTask tasks i).map RTask.id).Nodup :=
  List.Nodup.sublist ((List.filter_sublist tasks).map RTask.id) h

def RedisInv {T : Type} (s : RedisState T) : Prop :=
  (∀ tk ∈ s.tasks, tk.pc ≠ RPC.waitLock → s.lockHolder = some tk.id) ∧
    (s.tasks.map RTask.id).Nodup ∧ (∀ tk ∈ s.tasks, tk.id < s.nextTid)

theorem rinv_spawn {T : Type} (s : RedisState T) (h : RedisInv s) :
    RedisInv (spawnRenew s).1 := by
  obtain ⟨ha, hb, hc⟩ := h
  refine ⟨?_, ?_, ?_⟩
  · intro tk hm hne
    simp only [spawnRenew, List.mem_append, List.mem_singleton] at hm
    rcases hm with hm | hm
    · exact ha tk hm hne
    · exfalso; rw [hm] at hne; exact hne rfl
  · show ((s.tasks ++ [(⟨s.nextTid, RPC.waitLock⟩ : RTask T)]).map RTask.id).Nodup
    rw [List.map_append, List.nodup_append]
    refine ⟨hb, List.nodup_singleton _, ?_⟩
    intro a haa hab
    simp only [List.map_cons, List.map_nil, List.mem_singleton] at hab
    subst hab
    obtain ⟨tk0, hm0, h0⟩ := List.mem_map.mp haa
    have hlt := hc tk0 hm0
    rw [h0] at hlt
    exact absurd hlt (lt_irrefl _)
  · intro tk hm
    simp only [spawnRenew, List.mem_append, List.mem_singleton] at hm
    rcases hm with hm | hm
    · exact Nat.lt_succ_of_lt (hc tk hm)
    · rw [hm]; exact Nat.lt_succ_self _

theorem redisCall_rinv {T : Type} (timeMs t : Int) (s : RedisState T)
    (h : RedisInv s) : RedisInv (redisCall timeMs t s) := by
  unfold redisCall
  cases hst : s.store with
  | none => exact rinv_spawn s h
  | some rec =>
    dsimp only
    cases hx : isExpired rec.at' t timeMs with
    | true => exact rinv_spawn s h
    | false => exact h

theorem redisAcquire_rinv {T : Type} (i : Nat) (s : RedisState T)
    (h : RedisInv s) : RedisInv (redisAcquire i s) := by
  obtain ⟨ha, hb, hc⟩ := h
  unfold redisAcquire
  cases hf : findTask s.tasks i with
  | none => exact ⟨ha, hb, hc⟩
  | some tk =>
    obtain ⟨tid, tpc⟩ := tk
    have hid : tid = i := (findTask_mem s.tasks i _ hf).2
    cases tpc with
    | waitLock =>
      cases hl : s.lockHolder with
      | some u => exact ⟨ha, hb, hc⟩
      | none =>
        refine ⟨?_, ?_, ?_⟩
        · intro tk' hm' hne'
          obtain ⟨tk0, hm0, he0⟩ := mem_setTaskPC hm'
          by_cases h0 : (tk0.id == i) = true
          · rw [if_pos h0] at he0
            subst he0
            exact congrArg some (beq_iff_eq.mp h0).symm
          · rw [if_neg h0] at he0
            subst he0
            exfalso
            have hcon := ha tk' hm0 hne'
            rw [hl] at hcon
            exact Option.noConfusion hcon
        · show ((setTaskPC s.tasks i RPC.waitF).map RTask.id).Nodup
          rw [setTaskPC_map_id]
          exact hb
        · intro tk' hm'
          obtain ⟨tk0, hm0, he0⟩ := mem_setTaskPC hm'
          by_cases h0 : (tk0.id == i) = true
          · rw [if_pos h0] at he0; subst he0; exact hc tk0 hm0
          · rw [if_neg h0] at he0; subst he0; exact hc tk' hm0
    | waitF => exact ⟨ha, hb, hc⟩
    | waitSet rec => exact ⟨ha, hb, hc⟩

theorem redisFOk_rinv {T : Type} (i : Nat) (t : Int) (v : T)
    (s : RedisState T) (h : RedisInv s) : RedisInv (redisFOk i t v s) := by
  obtain ⟨ha, hb, hc⟩ := h
  unfold redisFOk
  cases hf : findTask s.tasks i with
  | none => exact ⟨ha, hb, hc⟩
  | some tk =>
    obtain ⟨tid, tpc⟩ := tk
    have hmem := (findTask_mem s.tasks i _ hf).1
    have hid : tid = i := (findTask_mem s.tasks i _ hf).2
    cases tpc with
    | waitLock => exact ⟨ha, hb, hc⟩
    | waitF =>
      have hlh : s.lockHolder = some i := by
        have hh := ha ⟨tid, RPC.waitF⟩ hmem (fun hcon => RPC.noConfusion hcon)
        rw [hid] at hh
        exact hh
      refine ⟨?_, ?_, ?_⟩
      · intro tk' hm' hne'
        obtain ⟨tk0, hm0, he0⟩ := mem_setTaskPC hm'
        by_cases h0 : (tk0.id == i) = true
        · rw [if_pos h0] at he0
          subst he0
          rw [beq_iff_eq.mp h0]
          exact hlh
        · rw [if_neg h0] at he0; subst he0; exact ha tk' hm0 hne'
      · show ((setTaskPC s.tasks i (RPC.waitSet ⟨t, v⟩)).map RTask.id).Nodup
        rw [setTaskPC_map_id]
        exact hb
      · intro tk' hm'
        obtain ⟨tk0, hm0, he0⟩ := mem_setTaskPC hm'
        by_cases h0 : (tk0.id == i) = true
        · rw [if_pos h0] at he0; subst he0; exact hc tk0 hm0
        · rw [if_neg h0] at he0; subst he0; exact hc tk' hm0
    | waitSet rec => exact ⟨ha, hb, hc⟩

theorem redisRemove_rinv {T : Type} (i : Nat) (s : RedisState T)
    (ha : ∀ tk ∈ s.tasks, tk.pc ≠ RPC.waitLock → s.lockHolder = some tk.id)
    (hb : (s.tasks.map RTask.id).Nodup) (hc : ∀ tk ∈ s.tasks, tk.id < s.nextTid) :
    (∀ tk ∈ removeTask s.tasks i, tk.pc ≠ RPC.waitLock →
        s.lockHolder = some tk.id) ∧
      ((removeTask s.tasks i).map RTask.id).Nodup ∧
      (∀ tk ∈ removeTask s.tasks i, tk.id < s.nextTid) :=
  ⟨fun tk hm hne => ha tk (mem_removeTask hm).1 hne,
    removeTask_map_id_nodup i hb,
    fun tk hm => hc tk (mem_removeTask hm).1⟩

theorem redisLockFail_rinv {T : Type} (i : Nat) (s : RedisState T)
    (h : RedisInv s) : RedisInv (redisLockFail i s) := by
  obtain ⟨ha, hb, hc⟩ := h
  unfold redisLockFail
  cases hf : findTask s.tasks i with
  | none => exact ⟨ha, hb, hc⟩
  | some tk =>
    obtain ⟨tid, tpc⟩ := tk
    cases tpc with
    | waitLock => exact redisRemove_rinv i s ha hb hc
    | waitF => exact ⟨ha, hb, hc⟩
    | waitSet rec => exact ⟨ha, hb, hc⟩

theorem redisFFail_rinv {T : Type} (i : Nat) (s : RedisState T)
    (h : RedisInv s) : RedisInv (redisFFail i s) := by
  obtain ⟨ha, hb, hc⟩ := h
  unfold redisFFail
  cases hf : findTask s.tasks i with
  | none => exact ⟨ha, hb, hc⟩
  | some tk =>
    obtain ⟨tid, tpc⟩ := tk
    cases tpc with
    | waitLock => exact ⟨ha, hb, hc⟩
    | waitF => exact redisRemove_rinv i s ha hb hc
    | waitSet rec => exact ⟨ha, hb, hc⟩

theorem redisSetFail_rinv {T : Type} (i : Nat) (s : RedisState T)
    (h : RedisInv s) : RedisInv (redisSetFail i s) := by
  obtain ⟨ha, hb, hc⟩ := h
  unfold redisSetFail
  cases hf : findTask s.tasks i with
  | none => exact ⟨ha, hb, hc⟩
  | some tk =>
    obtain ⟨tid, tpc⟩ := tk
    cases tpc with
    | waitLock => exact ⟨ha, hb, hc⟩
    | waitF => exact ⟨ha, hb, hc⟩
    | waitSet rec => exact redisRemove_rinv i s ha hb hc

theorem redisSetOk_rinv {T : Type} (i : Nat) (s : RedisState T)
    (h : RedisInv s) : RedisInv (redisSetOk i s) := by
  obtain ⟨ha, hb, hc⟩ := h
  unfold redisSetOk
  cases hf : findTask s.tasks i with
  | none => exact ⟨ha, hb, hc⟩
  | some tk =>
    obtain ⟨tid, tpc⟩ := tk
    have hmem := (findTask_mem s.tasks i _ hf).1
    have hid : tid = i := (findTask_mem s.tasks i _ hf).2
    cases tpc with
    | waitLock => exact ⟨ha, hb, hc⟩
    | waitF => exact ⟨ha, hb, hc⟩
    | waitSet rec =>
      have hlh : s.lockHolder = some i := by
        have hh := ha ⟨tid, RPC.waitSet rec⟩ hmem (fun hcon => RPC.noConfusion hcon)
        rw [hid] at hh
        exact hh
      refine ⟨?_, ?_, ?_⟩
      · intro tk' hm' hne'
        exfalso
        obtain ⟨hm0, hne0⟩ := mem_removeTask hm'
        have hcon := ha tk' hm0 hne'
        rw [hlh] at hcon
        injection hcon with hcon2
        exact hne0 hcon2.symm
      · exact removeTask_map_id_nodup i hb
      · intro tk' hm'
        exact hc tk' (mem_removeTask hm').1

theorem redisStep_rinv {T : Type} (timeMs : Int) (s : RedisState T)
    (ev : RedisEv T) (h : RedisInv s) : RedisInv (redisStep timeMs s ev) := by
  cases ev with
  | rcall t => exact redisCall_rinv timeMs t s h
  | acquire i => exact redisAcquire_rinv i s h
  | lockGiveUp i => exact redisLockFail_rinv i s h
  | fOk i t v => exact redisFOk_rinv i t v s h
  | fFail i => exact redisFFail_rinv i s h
  | setOk i => exact redisSetOk_rinv i s h
  | setFail i => exact redisSetFail_rinv i s h

theorem redisInv_of_reachable {T : Type} (timeMs : Int) (s : RedisState T)
    (h : RedisReachable timeMs s) : RedisInv s := by
  obtain ⟨evs, rfl⟩ := h
  exact foldl_preserve (redisStep timeMs) RedisInv
    (fun a ev ha => redisStep_rinv timeMs a ev ha) evs (redisInit T)
    ⟨fun tk hm => absurd hm (List.not_mem_nil tk), List.nodup_nil,
      fun tk hm => absurd hm (List.not_mem_nil tk)⟩

/-- A task whose `await f(...args)` is currently outstanding. -/
def isComputing {T : Type} (tk : RTask T) : Bool :=
  match tk.pc with
  | RPC.waitF => true
  | _ => false

theorem pc_ne_waitLock_of_isComputing {T : Type} {tk : RTask T}
    (h : isComputing tk = true) : tk.pc ≠ RPC.waitLock := by
  intro hcon
  simp [isComputing, hcon] at h

theorem length_le_one_of_nodup_all_eq {l : List Nat} (c : Nat)
    (hnd : l.Nodup) (hall : ∀ x ∈ l, x = c) : l.length ≤ 1 := by
  cases l with
  | nil => simp
  | cons a tl =>
    cases tl with
    | nil => simp
    | cons b tl2 =>
      exfalso
      have ha := hall a (by simp)
      have hb2 := hall b (by simp)
      have hne : a ∉ b :: tl2 := (List.nodup_cons.mp hnd).1
      rw [ha, hb2] at hne
      exact hne (List.mem_cons_self c tl2)

theorem rinv_computing_le_one {T : Type} {s : RedisState T}
    (h : RedisInv s) : (s.tasks.filter isComputing).length ≤ 1 := by
  obtain ⟨ha, hb, hc⟩ := h
  have hnd : ((s.tasks.filter isComputing).map RTask.id).Nodup :=
    List.Nodup.sublist ((List.filter_sublist s.tasks).map RTask.id) hb
  cases hl : s.lockHolder with
  | none =>
    have hnil : s.tasks.filter isComputing = [] := by
      rw [List.eq_nil_iff_forall_not_mem]
      intro tk htk
      have hm := List.mem_filter.mp htk
      have hh := ha tk hm.1 (pc_ne_waitLock_of_isComputing hm.2)
      rw [hl] at hh
      exact Option.noConfusion hh
    simp [hnil]
  | some hid =>
    have hall : ∀ x ∈ (s.tasks.filter isComputing).map RTask.id, x = hid := by
      intro x hx
      obtain ⟨tk, htk, rfl⟩ := List.mem_map.mp hx
      have hm := List.mem_filter.mp htk
      have hh := ha tk hm.1 (pc_ne_waitLock_of_isComputing hm.2)
      rw [hl] at hh
      injection hh with hh2
      exact hh2.symm
    have hlen := length_le_one_of_nodup_all_eq hid hnd hall
    simpa using hlen

/-! ### Claims C7 and C10 -/

/-- Claim C7: in every reachable state of either backend, at most one
computation of `f` per key is in flight within the process — the memory
backend never has more than one suspended executor, and the redis backend
never has more than one renewal task past its lock acquisition, because
acquiring the named lock is the only way to reach `await f`. -/
theorem c7_at_most_one_inflight_computation :
    (∀ (T : Type) (truthy : T → Bool) (timeMs : Int) (s : MemState T),
      MemReachable truthy timeMs s → s.pendings.length ≤ 1) ∧
    (∀ (T : Type) (timeMs : Int) (s : RedisState T),
      RedisReachable timeMs s → (s.tasks.filter isComputing).length ≤ 1) :=
  ⟨fun _ truthy timeMs s hs => (memInv_of_reachable truthy timeMs s hs).1,
    fun _ timeMs s hs => rinv_computing_le_one (redisInv_of_reachable timeMs s hs)⟩

/-- Witness for claim C7 at concrete reachable states: a memory state with a
cold computation in flight, and a redis state in which a renewal holds the
lock and computes while a second stale caller's renewal waits. -/
theorem c7_at_most_one_inflight_computation_witness :
    (memRun truthyInt 1000 [MemEv.call 0, MemEv.call 0]).pendings.length ≤ 1 ∧
    ((redisRun (T := Int) 10
        [RedisEv.rcall 0, RedisEv.acquire 0, RedisEv.fOk 0 5 9,
          RedisEv.setOk 0, RedisEv.rcall 100, RedisEv.rcall 100,
          RedisEv.acquire 1]).tasks.filter isComputing).length ≤ 1 :=
  ⟨c7_at_most_one_inflight_computation.1 Int truthyInt 1000 _
      ⟨[MemEv.call 0, MemEv.call 0], rfl⟩,
    c7_at_most_one_inflight_computation.2 Int 10 _
      ⟨[RedisEv.rcall 0, RedisEv.acquire 0, RedisEv.fOk 0 5 9,
          RedisEv.setOk 0, RedisEv.rcall 100, RedisEv.rcall 100,
          RedisEv.acquire 1], rfl⟩⟩

theorem redisCall_writeLog {T : Type} (timeMs t : Int) (s : RedisState T) :
    (redisCall timeMs t s).writeLog = s.writeLog := by
  unfold redisCall
  cases hst : s.store with
  | none => rfl
  | some rec =>
    dsimp only
    cases hx : isExpired rec.at' t timeMs <;> simp [hx, spawnRenew]

theorem redisAcquire_writeLog {T : Type} (i : Nat) (s : RedisState T) :
    (redisAcquire i s).writeLog = s.writeLog := by
  unfold redisAcquire
  cases hf : findTask s.tasks i with
  | none => rfl
  | some tk =>
    obtain ⟨tid, tpc⟩ := tk
    cases tpc with
    | waitLock => cases hl : s.lockHolder with | none => rfl | some u => rfl
    | waitF => rfl
    | waitSet rec => rfl

theorem redisLockFail_writeLog {T : Type} (i : Nat) (s : RedisState T) :
    (redisLockFail i s).writeLog = s.writeLog := by
  unfold redisLockFail
  cases hf : findTask s.tasks i with
  | none => rfl
  | some tk =>
    obtain ⟨tid, tpc⟩ := tk
    cases tpc with
    | waitLock => rfl
    | waitF => rfl
    | waitSet rec => rfl

theorem redisFOk_writeLog {T : Type} (i : Nat) (t : Int) (v : T)
    (s : RedisState T) : (redisFOk i t v s).writeLog = s.writeLog := by
  unfold redisFOk
  cases hf : findTask s.tasks i with
  | none => rfl
  | some tk =>
    obtain ⟨tid, tpc⟩ := tk
    cases tpc with
    | waitLock => rfl
    | waitF => rfl
    | waitSet rec => rfl

theorem redisFFail_writeLog {T : Type} (i : Nat) (s : RedisState T) :
    (redisFFail i s).writeLog = s.writeLog := by
  unfold redisFFail
  cases hf : findTask s.tasks i with
  | none => rfl
  | some tk =>
    obtain ⟨tid, tpc⟩ := tk
    cases tpc with
    | waitLock => rfl
    | waitF => rfl
    | waitSet rec => rfl

theorem redisSetFail_writeLog {T : Type} (i : Nat) (s : RedisState T) :
    (redisSetFail i s).writeLog = s.writeLog := by
  unfold redisSetFail
  cases hf : findTask s.tasks i with
  | none => rfl
  | some tk =>
    obtain ⟨tid, tpc⟩ := tk
    cases tpc with
    | waitLock => rfl
    | waitF => rfl
    | waitSet rec => rfl

/-- Claim C10: in every reachable state of the distributed backend, every
renewal task past its `await redlock.lock` — computing `f` or writing the
record — is the current lock holder; hence at most one renewal is ever
inside the lock-protected region, and whenever a step extends the write log
it is the step of the lock holder and that same step releases the lock (the
source runs `lock.unlock()` synchronously after `await redis.set`) and makes
the written record the store's content.  Store writes of two concurrent
renewals therefore never interleave: each write happens under the lock and
the lock is released only after the write. -/
theorem c10_distributed_renewal_mutual_exclusion :
    ∀ (T : Type) (timeMs : Int) (s : RedisState T), RedisReachable timeMs s →
      (∀ tk ∈ s.tasks, tk.pc ≠ RPC.waitLock → s.lockHolder = some tk.id) ∧
      (∀ tk1 ∈ s.tasks, ∀ tk2 ∈ s.tasks,
        tk1.pc ≠ RPC.waitLock → tk2.pc ≠ RPC.waitLock → tk1 = tk2) ∧
      (∀ (ev : RedisEv T) (i : Nat) (rec : RedisRecord T),
        (redisStep timeMs s ev).writeLog = s.writeLog ++ [(i, rec)] →
        s.lockHolder = some i ∧ (redisStep timeMs s ev).lockHolder = none ∧
          (redisStep timeMs s ev).store = some rec) := by
  intro T timeMs s hs
  obtain ⟨ha, hb, hc⟩ := redisInv_of_reachable timeMs s hs
  refine ⟨ha, ?_, ?_⟩
  · intro tk1 hm1 tk2 hm2 hne1 hne2
    have h1 := ha tk1 hm1 hne1
    have h2 := ha tk2 hm2 hne2
    rw [h1] at h2
    injection h2 with hid
    exact List.inj_on_of_nodup_map hb hm1 hm2 hid
  · intro ev i rec hw
    cases ev with
    | rcall t =>
      exfalso
      rw [show redisStep timeMs s (RedisEv.rcall t) = redisCall timeMs t s
          from rfl, redisCall_writeLog] at hw
      have hlen := congrArg List.length hw
      simp at hlen
    | acquire j =>
      exfalso
      rw [show redisStep timeMs s (RedisEv.acquire j) = redisAcquire j s
          from rfl, redisAcquire_writeLog] at hw
      have hlen := congrArg List.length hw
      simp at hlen
    | lockGiveUp j =>
      exfalso
      rw [show redisStep timeMs s (RedisEv.lockGiveUp j) = redisLockFail j s
          from rfl, redisLockFail_writeLog] at hw
      have hlen := congrArg List.length hw
      simp at hlen
    | fOk j t v =>
      exfalso
      rw [show redisStep timeMs s (RedisEv.fOk j t v) = redisFOk j t v s
          from rfl, redisFOk_writeLog] at hw
      have hlen := congrArg List.length hw
      simp at hlen
    | fFail j =>
      exfalso
      rw [show redisStep timeMs s (RedisEv.fFail j) = redisFFail j s
          from rfl, redisFFail_writeLog] at hw
      have hlen := congrArg List.length hw
      simp at hlen
    | setFail j =>
      exfalso
      rw [show redisStep timeMs s (RedisEv.setFail j) = redisSetFail j s
          from rfl, redisSetFail_writeLog] at hw
      have hlen := congrArg List.length hw
      simp at hlen
    | setOk j =>
      rw [show redisStep timeMs s (RedisEv.setOk j) = redisSetOk j s
          from rfl] at hw ⊢
      unfold redisSetOk at hw ⊢
      cases hf : findTask s.tasks j with
      | none =>
        exfalso
        rw [hf] at hw
        have hlen := congrArg List.length hw
        simp at hlen
      | some tk =>
        rw [hf] at hw
        obtain ⟨tid, tpc⟩ := tk
        have hmem := (findTask_mem s.tasks j _ hf).1
        have hid : tid = j := (findTask_mem s.tasks j _ hf).2
        cases tpc with
        | waitLock =>
          exfalso
          have hlen := congrArg List.length hw
          simp at hlen
        | waitF =>
          exfalso
          have hlen := congrArg List.length hw
          simp at hlen
        | waitSet rec0 =>
          have hw2 : s.writeLog ++ [(j, rec0)] = s.writeLog ++ [(i, rec)] := hw
          have hji : ((j, rec0) : Nat × RedisRecord T) = (i, rec) := by
            have := List.append_cancel_left hw2
            simpa using this
          have hj : j = i := congrArg Prod.fst hji
          have hrec : rec0 = rec := congrArg Prod.snd hji
          subst hj
          subst hrec
          have hlh : s.lockHolder = some j := by
            have hh := ha ⟨tid, RPC.waitSet rec0⟩ hmem
              (fun hcon => RPC.noConfusion hcon)
            rw [hid] at hh
            exact hh
          exact ⟨hlh ▸ (by rw [hlh]), rfl, rfl⟩

/-- Witness for claim C10 at a concrete reachable state: the renewal holding
the lock performs its store write, and that very step is by the lock holder,
releases the lock, and publishes the written record. -/
theorem c10_distributed_renewal_mutual_exclusion_witness :
    (redisRun (T := Int) 10
        [RedisEv.rcall 0, RedisEv.acquire 0, RedisEv.fOk 0 5 9]).lockHolder =
      some 0 ∧
    (redisStep 10
        (redisRun (T := Int) 10
          [RedisEv.rcall 0, RedisEv.acquire 0, RedisEv.fOk 0 5 9])
        (RedisEv.setOk 0)).lockHolder = none ∧
    (redisStep 10
        (redisRun (T := Int) 10
          [RedisEv.rcall 0, RedisEv.acquire 0, RedisEv.fOk 0 5 9])
        (RedisEv.setOk 0)).store = some ⟨5, 9⟩ :=
  (c10_distributed_renewal_mutual_exclusion Int 10 _
      ⟨[RedisEv.rcall 0, RedisEv.acquire 0, RedisEv.fOk 0 5 9], rfl⟩).2.2
    (RedisEv.setOk 0) 0 ⟨5, 9⟩ (by decide)

/-! ### Claim C8 — distributed background renewal swallows failures

The stale caller's outcome is recorded at call time as an already-resolved
value; later steps only append to the outcome log, so no renewal failure can
reach back into the caller's settled promise. -/

theorem redisAcquire_outcomes {T : Type} (i : Nat) (s : RedisState T) :
    (redisAcquire i s).outcomes = s.outcomes := by
  unfold redisAcquire
  cases hf : findTask s.tasks i with
  | none => rfl
  | some tk =>
    obtain ⟨tid, tpc⟩ := tk
    cases tpc with
    | waitLock => cases hl : s.lockHolder with | none => rfl | some u => rfl
    | waitF => rfl
    | waitSet rec => rfl

theorem redisLockFail_outcomes {T : Type} (i : Nat) (s : RedisState T) :
    (redisLockFail i s).outcomes = s.outcomes := by
  unfold redisLockFail
  cases hf : findTask s.tasks i with
  | none => rfl
  | some tk =>
    obtain ⟨tid, tpc⟩ := tk
    cases tpc with
    | waitLock => rfl
    | waitF => rfl
    | waitSet rec => rfl

theorem redisFOk_outcomes {T : Type} (i : Nat) (t : Int) (v : T)
    (s : RedisState T) : (redisFOk i t v s).outcomes = s.outcomes := by
  unfold redisFOk
  cases hf : findTask s.tasks i with
  | none => rfl
  | some tk =>
    obtain ⟨tid, tpc⟩ := tk
    cases tpc with
    | waitLock => rfl
    | waitF => rfl
    | waitSet rec => rfl

theorem redisFFail_outcomes {T : Type} (i : Nat) (s : RedisState T) :
    (redisFFail i s).outcomes = s.outcomes := by
  unfold redisFFail
  cases hf : findTask s.tasks i with
  | none => rfl
  | some tk =>
    obtain ⟨tid, tpc⟩ := tk
    cases tpc with
    | waitLock => rfl
    | waitF => rfl
    | waitSet rec => rfl

theorem redisSetOk_outcomes {T : Type} (i : Nat) (s : RedisState T) :
    (redisSetOk i s).outcomes = s.outcomes := by
  unfold redisSetOk
  cases hf : findTask s.tasks i with
  | none => rfl
  | some tk =>
    obtain ⟨tid, tpc⟩ := tk
    cases tpc with
    | waitLock => rfl
    | waitF => rfl
    | waitSet rec => rfl

theorem redisSetFail_outcomes {T : Type} (i : Nat) (s : RedisState T) :
    (redisSetFail i s).outcomes = s.outcomes := by
  unfold redisSetFail
  cases hf : findTask s.tasks i with
  | none => rfl
  | some tk =>
    obtain ⟨tid, tpc⟩ := tk
    cases tpc with
    | waitLock => rfl
    | waitF => rfl
    | waitSet rec => rfl

theorem redisCall_outcomes {T : Type} (timeMs t : Int) (s : RedisState T) :
    ∃ o, (redisCall timeMs t s).outcomes = s.outcomes ++ [o] := by
  unfold redisCall
  cases hst : s.store with
  | none => exact ⟨_, rfl⟩
  | some rec =>
    dsimp only
    cases hx : isExpired rec.at' t timeMs with
    | true => exact ⟨_, rfl⟩
    | false => exact ⟨_, rfl⟩

/-- A recorded call outcome is never modified by any later event. -/
theorem redisStep_outcome_stable {T : Type} (timeMs : Int) (s : RedisState T)
    (ev : RedisEv T) (n : Nat) (x : Outcome T)
    (h : s.outcomes.get? n = some x) :
    (redisStep timeMs s ev).outcomes.get? n = some x := by
  have hlt : n < s.outcomes.length := (List.get?_eq_some.mp h).1
  cases ev with
  | rcall t =>
    obtain ⟨o, ho⟩ := redisCall_outcomes timeMs t s
    show (redisCall timeMs t s).outcomes.get? n = some x
    rw [ho, List.get?_append hlt]
    exact h
  | acquire i =>
    show (redisAcquire i s).outcomes.get? n = some x
    rw [redisAcquire_outcomes]
    exact h
  | lockGiveUp i =>
    show (redisLockFail i s).outcomes.get? n = some x
    rw [redisLockFail_outcomes]
    exact h
  | fOk i t v =>
    show (redisFOk i t v s).outcomes.get? n = some x
    rw [redisFOk_outcomes]
    exact h
  | fFail i =>
    show (redisFFail i s).outcomes.get? n = some x
    rw [redisFFail_outcomes]
    exact h
  | setOk i =>
    show (redisSetOk i s).outcomes.get? n = some x
    rw [redisSetOk_outcomes]
    exact h
  | setFail i =>
    show (redisSetFail i s).outcomes.get? n = some x
    rw [redisSetFail_outcomes]
    exact h

/-- Claim C8: a call observing a stale record in the distributed backend has
its promise resolved with the stale value at call time, and that outcome is
still in force after any sequence of further events — lock failures, a
failing `f`, failing store writes included.  No renewal failure is ever
thrown into the caller's context. -/
theorem c8_distributed_renewal_failures_swallowed (T : Type)
    (timeMs t : Int) (rec : RedisRecord T) (s : RedisState T)
    (more : List (RedisEv T)) (hs : s.store = some rec)
    (hx : isExpired rec.at' t timeMs = true) :
    (redisCall timeMs t s).outcomes.get? s.outcomes.length =
      some (Outcome.immediate (some rec.value)) ∧
    (redisRunFrom timeMs (redisCall timeMs t s) more).outcomes.get?
        s.outcomes.length = some (Outcome.immediate (some rec.value)) := by
  have h1 : (redisCall timeMs t s).outcomes.get? s.outcomes.length =
      some (Outcome.immediate (some rec.value)) := by
    rw [redisCall_stale timeMs t rec s hs hx]
    exact List.get?_concat_length s.outcomes _
  refine ⟨h1, ?_⟩
  exact foldl_preserve (redisStep timeMs)
    (fun s' => s'.outcomes.get? s.outcomes.length =
      some (Outcome.immediate (some rec.value)))
    (fun a ev ha => redisStep_outcome_stable timeMs a ev _ _ ha) more
    (redisCall timeMs t s) h1

/-- Witness for claim C8: a concrete stale hit whose renewal acquires the
lock and then fails; the caller's recorded outcome is untouched. -/
theorem c8_distributed_renewal_failures_swallowed_witness :
    ((⟨some ⟨0, 9⟩, none, [], [], 0, 0, [], []⟩ : RedisState Int).store =
      some ⟨0, 9⟩ ∧ isExpired 0 100 10 = true) ∧
    (redisRunFrom 10
        (redisCall 10 100 (⟨some ⟨0, 9⟩, none, [], [], 0, 0, [], []⟩ : RedisState Int))
        [RedisEv.acquire 0, RedisEv.fFail 0]).outcomes.get? 0 =
      some (Outcome.immediate (some 9)) :=
  ⟨⟨rfl, by decide⟩,
    (c8_distributed_renewal_failures_swallowed Int 10 100 ⟨0, 9⟩
      (⟨some ⟨0, 9⟩, none, [], [], 0, 0, [], []⟩ : RedisState Int)
      [RedisEv.acquire 0, RedisEv.fFail 0] rfl (by decide)).2⟩

/-! ### Claim C9 — cache key derivation -/

/-- Claim C9: the distributed backend's key is exactly the caller-supplied
namespace string concatenated with the canonical JSON serialization of the
argument list, the memory backend's key is that serialization alone, both
are deterministic in the argument values, keys distinguish whatever the
serialization distinguishes, and argument order matters: swapping two
distinct numeric arguments changes the key under every namespace. -/
theorem c9_cache_key_derivation :
    (∀ (cacheKey : String) (args : List JVal),
      redisKeyOf cacheKey args = cacheKey ++ jsonStringify (JVal.jarr args)) ∧
    (∀ args1 args2 : List JVal, args1 = args2 →
      memoryKeyOf args1 = memoryKeyOf args2 ∧
      ∀ cacheKey, redisKeyOf cacheKey args1 = redisKeyOf cacheKey args2) ∧
    (∀ (cacheKey : String) (args1 args2 : List JVal),
      jsonStringify (JVal.jarr args1) ≠ jsonStringify (JVal.jarr args2) →
      redisKeyOf cacheKey args1 ≠ redisKeyOf cacheKey args2) ∧
    (∀ cacheKey : String,
      redisKeyOf cacheKey [JVal.jnum 1, JVal.jnum 2] ≠
        redisKeyOf cacheKey [JVal.jnum 2, JVal.jnum 1]) := by
  have hcancel : ∀ (a b c : String), a ++ b = a ++ c → b = c := by
    intro a b c h
    have hd := congrArg String.data h
    rw [String.data_append, String.data_append] at hd
    exact String.ext (List.append_cancel_left hd)
  refine ⟨fun _ _ => rfl, fun args1 args2 h => by rw [h]; exact ⟨rfl, fun _ => rfl⟩,
    ?_, ?_⟩
  · intro cacheKey args1 args2 hne heq
    exact hne (hcancel cacheKey _ _ heq)
  · intro cacheKey heq
    have hne : jsonStringify (JVal.jarr [JVal.jnum 1, JVal.jnum 2]) ≠
        jsonStringify (JVal.jarr [JVal.jnum 2, JVal.jnum 1]) := by decide
    exact hne (hcancel cacheKey _ _ heq)

/-- Witness for claim C9: concrete namespace and argument lists. -/
theorem c9_cache_key_derivation_witness :
    ([JVal.jnum 3] = [JVal.jnum 3] ∧
      memoryKeyOf [JVal.jnum 3] = memoryKeyOf [JVal.jnum 3]) ∧
    (jsonStringify (JVal.jarr [JVal.jnum 1]) ≠
        jsonStringify (JVal.jarr [JVal.jnum 2]) ∧
      redisKeyOf "cache" [JVal.jnum 1] ≠ redisKeyOf "cache" [JVal.jnum 2]) :=
  ⟨⟨rfl, (c9_cache_key_derivation.2.1 [JVal.jnum 3] [JVal.jnum 3] rfl).1⟩,
    ⟨by decide,
      c9_cache_key_derivation.2.2.1 "cache" [JVal.jnum 1] [JVal.jnum 2]
        (by decide)⟩⟩

end LazyCache
